import Mathlib

/-!
# Linear interpolation (`xpcc/ui/animation/interpolation.hpp`)

A shallow embedding of `xpcc::ui::LinearInterpolation<T>`: the three
fixed-point specialisations of `Computations` (for value types whose unsigned
companion is `uint8_t`, `uint16_t`, `uint32_t`) and the floating-point default.

Machine integers are modelled by `Nat` (unsigned) and `Int` (signed) with an
explicit reduction wherever the C++ code converts to a fixed-width type.
C++ integer division truncates toward zero, which is `Int.tdiv`.  A left
shift by `f` of a (possibly negative) signed value is multiplication by `2 ^ f`.
The value type `Type` is the unsigned type of its width, so the arguments of
`initialize` and the results of `step` are natural numbers below `2 ^ valueBits`.

The period arithmetic of `xpcc::stm32::Timer5::setPeriod` and
`Timer7::setPeriod` is embedded in the namespace `Timer`.
-/

namespace LinearInterpolation

/-! ## Fixed-point variants -/

/-- The fixed-point specialisations `Computations<Type, uint8_t>`,
`Computations<Type, uint16_t>` and `Computations<Type, uint32_t>`. -/
inductive Variant where
  | fixed8
  | fixed16
  | fixed32
  deriving DecidableEq, Repr

/-- Width in bits of the value type `Type` (the result type of `step`). -/
def valueBits : Variant → Nat
  | .fixed8 => 8
  | .fixed16 => 16
  | .fixed32 => 32

/-- Number of fractional bits, the shift amounts `7`, `15` and `16`. -/
def fractionalBits : Variant → Nat
  | .fixed8 => 7
  | .fixed16 => 15
  | .fixed32 => 16

/-- Width in bits of `accumulatedValue` (unsigned) and `deltaValue` (signed):
`uint16_t`/`int16_t`, `uint32_t`/`int32_t`, `uint64_t`/`int64_t`. -/
def accumulatorBits : Variant → Nat
  | .fixed8 => 16
  | .fixed16 => 32
  | .fixed32 => 64

/-- Width in bits of the `steps` parameter (`StepType`): `uint16_t` for 8-bit
values, `uint32_t` otherwise. -/
def stepBits : Variant → Nat
  | .fixed8 => 16
  | .fixed16 => 32
  | .fixed32 => 32

/-- Width in bits of the signed type `steps` is cast to before the division:
`static_cast<int16_t>(steps)`, `static_cast<int32_t>(steps)` (twice). -/
def divisorBits : Variant → Nat
  | .fixed8 => 16
  | .fixed16 => 32
  | .fixed32 => 32

/-- Conversion of an integer to the unsigned type of `bits` bits. -/
def wrapUnsigned (bits : Nat) (x : Int) : Nat :=
  (x % ((2 ^ bits : Nat) : Int)).toNat

/-- Conversion of an integer to the two's complement signed type of `bits` bits. -/
def wrapSigned (bits : Nat) (x : Int) : Int :=
  (x + ((2 ^ (bits - 1) : Nat) : Int)) % ((2 ^ bits : Nat) : Int) - ((2 ^ (bits - 1) : Nat) : Int)

/-- The data members of a fixed-point `Computations` object. -/
structure Computations where
  accumulatedValue : Nat
  deltaValue : Int
  deriving DecidableEq, Repr

/-- `Computations<Type, uintN_t>::initialize(currentValue, endValue, steps)`.
The result is `none` when the integer division has a zero divisor (undefined
behaviour in C++). -/
def initialise (v : Variant) (currentValue endValue steps : Nat) : Option Computations :=
  -- `intN_t delta = (static_cast<intN_t>(endValue) - currentValue) << f;`
  let delta : Int := wrapSigned (accumulatorBits v)
    (((endValue : Int) - (currentValue : Int)) * ((2 ^ fractionalBits v : Nat) : Int))
  -- `deltaValue = delta / static_cast<intM_t>(steps);`
  let divisor : Int := wrapSigned (divisorBits v) (steps : Int)
  if divisor = 0 then none
  else
    let quotient : Int := wrapSigned (accumulatorBits v) (Int.tdiv delta divisor)
    -- `if (deltaValue == 0) deltaValue = delta > 0 ? 1 : -1;`
    let deltaValue : Int := if quotient = 0 then (if delta > 0 then 1 else -1) else quotient
    -- `accumulatedValue = (static_cast<uintN_t>(currentValue) << f) + deltaValue / 2;`
    some
      { accumulatedValue := wrapUnsigned (accumulatorBits v)
          ((currentValue : Int) * ((2 ^ fractionalBits v : Nat) : Int) + Int.tdiv deltaValue 2)
        deltaValue := deltaValue }

/-- `Computations<Type, uintN_t>::step()`: the new state and the returned value. -/
def step (v : Variant) (c : Computations) : Computations × Nat :=
  -- `accumulatedValue += deltaValue; return static_cast<Type>(accumulatedValue >> f);`
  let accumulatedValue :=
    wrapUnsigned (accumulatorBits v) ((c.accumulatedValue : Int) + c.deltaValue)
  ({ c with accumulatedValue := accumulatedValue },
    (accumulatedValue / 2 ^ fractionalBits v) % 2 ^ valueBits v)

/-- `LinearInterpolation::reset()`. -/
def reset (c : Computations) : Computations :=
  { c with deltaValue := 0 }

/-- The state after `k` successive calls of `step`. -/
def stepN (v : Variant) : Nat → Computations → Computations
  | 0, c => c
  | k + 1, c => (step v (stepN v k c)).1

/-- The value returned by call number `k` of `step`, calls counted from 1. -/
def output (v : Variant) (c : Computations) (k : Nat) : Nat :=
  (step v (stepN v (k - 1) c)).2

/-- Two values differ by at most one unit. -/
def withinOne (a b : Nat) : Prop :=
  a ≤ b + 1 ∧ b ≤ a + 1

instance (a b : Nat) : Decidable (withinOne a b) := by
  unfold withinOne
  infer_instance

/-- The absolute difference of two unsigned values. -/
def absDiff (a b : Nat) : Nat :=
  if a ≤ b then b - a else a - b

/-- The `deltaValue` stored by `initialize` when no conversion loses a bit: the
truncated quotient of `delta` by `steps`, replaced by `1` or `-1` when zero. -/
def storedDelta (v : Variant) (currentValue endValue steps : Nat) : Int :=
  let delta : Int := ((endValue : Int) - (currentValue : Int)) * ((2 ^ fractionalBits v : Nat) : Int)
  if Int.tdiv delta (steps : Int) = 0 then (if delta > 0 then 1 else -1)
  else Int.tdiv delta (steps : Int)

/-! ## Floating-point default -/

/-- The data members of the default `Computations` object, whose arithmetic is
`float`.  Rational numbers stand for the `float` values: the model agrees with
the code wherever every intermediate result is exactly representable. -/
structure FloatComputations where
  accumulatedValue : ℚ
  deltaValue : ℚ
  deriving DecidableEq

/-- The default `Computations::initialize(currentValue, endValue, steps)` for a
value type `Type = float`; `epsilon` is `xpcc::ArithmeticTraits<float>::epsilon`.
A zero `steps` (division by zero, not a rational number) gives `none`. -/
def initialiseFloat (epsilon : ℚ) (currentValue endValue : ℚ) (steps : Nat) :
    Option FloatComputations :=
  if steps = 0 then none
  else
    -- `float delta = (static_cast<float>(endValue) - currentValue);`
    let delta : ℚ := endValue - currentValue
    let quotient : ℚ := delta / (steps : ℚ)
    let deltaValue : ℚ := if quotient = 0 then (if delta > 0 then epsilon else -epsilon) else quotient
    some { accumulatedValue := currentValue + deltaValue / 2, deltaValue := deltaValue }

/-- The default `Computations::step()`: the new state and the returned value. -/
def stepFloat (c : FloatComputations) : FloatComputations × ℚ :=
  let accumulatedValue := c.accumulatedValue + c.deltaValue
  ({ c with accumulatedValue := accumulatedValue }, accumulatedValue)

/-- The state after `k` successive calls of the default `step`. -/
def stepNFloat : Nat → FloatComputations → FloatComputations
  | 0, c => c
  | k + 1, c => (stepFloat (stepNFloat k c)).1

/-- The value returned by call number `k` of the default `step`, counted from 1. -/
def outputFloat (c : FloatComputations) (k : Nat) : ℚ :=
  (stepFloat (stepNFloat (k - 1) c)).2

/-! ## The parts of `initialize` -/

/-- The local variable `delta` of `initialize`:
`intN_t delta = (static_cast<intN_t>(endValue) - currentValue) << f`. -/
def rawDelta (v : Variant) (currentValue endValue : Nat) : Int :=
  wrapSigned (accumulatorBits v)
    (((endValue : Int) - (currentValue : Int)) * ((2 ^ fractionalBits v : Nat) : Int))

/-- The divisor of `initialize`: `static_cast<intM_t>(steps)`. -/
def castDivisor (v : Variant) (steps : Nat) : Int :=
  wrapSigned (divisorBits v) (steps : Int)

/-- The value first assigned to `deltaValue` by `initialize`, before the test
for zero: `delta / static_cast<intM_t>(steps)`. -/
def quotient (v : Variant) (currentValue endValue steps : Nat) : Int :=
  wrapSigned (accumulatorBits v)
    (Int.tdiv (rawDelta v currentValue endValue) (castDivisor v steps))

/-- The signed division of `initialize` is undefined: the divisor is zero, or
the dividend is the minimum of the signed type and the divisor is `-1`. -/
def divisionFaults (v : Variant) (currentValue endValue steps : Nat) : Prop :=
  castDivisor v steps = 0 ∨
    (rawDelta v currentValue endValue = -((2 ^ (accumulatorBits v - 1) : Nat) : Int) ∧
      castDivisor v steps = -1)

instance (v : Variant) (currentValue endValue steps : Nat) :
    Decidable (divisionFaults v currentValue endValue steps) := by
  unfold divisionFaults
  infer_instance

/-- `initialize` as a member function: the object before the call is `prior`,
and each assignment of the body updates one data member. -/
def initialiseFrom (v : Variant) (prior : Computations) (currentValue endValue steps : Nat) :
    Option Computations :=
  let delta : Int := rawDelta v currentValue endValue
  if castDivisor v steps = 0 then none
  else
    -- `deltaValue = delta / static_cast<intM_t>(steps);`
    let c1 : Computations :=
      { prior with deltaValue := wrapSigned (accumulatorBits v) (Int.tdiv delta (castDivisor v steps)) }
    -- `if (deltaValue == 0) deltaValue = delta > 0 ? 1 : -1;`
    let c2 : Computations :=
      if c1.deltaValue = 0 then { c1 with deltaValue := if delta > 0 then 1 else -1 } else c1
    -- `accumulatedValue = (static_cast<uintN_t>(currentValue) << f) + deltaValue / 2;`
    let accumulatedValue : Nat := wrapUnsigned (accumulatorBits v)
      ((currentValue : Int) * ((2 ^ fractionalBits v : Nat) : Int) + Int.tdiv c2.deltaValue 2)
    some { c2 with accumulatedValue := accumulatedValue }

/-- The direct formula for the value returned by call number `k` of the 8-bit
`step()`, given the start value and the stored delta `d`:
`(((128 * start + trunc(d / 2) + k * d) mod 2^16) div 2^7) mod 2^8`. -/
def closedFormOutput8 (start : Nat) (d : Int) (k : Nat) : Nat :=
  ((((128 * (start : Int) + Int.tdiv d 2 + (k : Int) * d) % 2 ^ 16) / 2 ^ 7) % 2 ^ 8).toNat

end LinearInterpolation

/-! # Timer period (`stm32/timer/timer_5.cpp`, `timer_7.cpp`) -/

namespace Timer

/-- `xpcc::stm32::Timer5::setPeriod(microseconds, autoApply)` and the identical
`Timer7::setPeriod`: the value passed to `setPrescaler` and the returned
`overflow`.  `cpuFrequency` is the constant `F_CPU`.  The result is `none` when
`cycles / prescaler` divides by zero. -/
def setPeriod (cpuFrequency microseconds : Nat) : Option (Nat × Nat) :=
  -- `uint32_t cycles = microseconds * (F_CPU / 1000000UL);`
  let cycles : Nat := (microseconds * (cpuFrequency / 1000000)) % 2 ^ 32
  -- `uint16_t prescaler = (cycles + 65535) / 65536;`
  let prescaler : Nat := (((cycles + 65535) % 2 ^ 32) / 65536) % 2 ^ 16
  if prescaler = 0 then none
  else
    -- `uint16_t overflow = cycles / prescaler;`
    let overflow : Nat := (cycles / prescaler) % 2 ^ 16
    -- `overflow = overflow - 1;`
    let overflow : Nat := (overflow + 65535) % 2 ^ 16
    some (prescaler, overflow)

end Timer

namespace LinearInterpolation

/-! ## Arithmetic helpers -/

theorem wrapUnsigned_lt (bits : Nat) (x : Int) : wrapUnsigned bits x < 2 ^ bits := by
  unfold wrapUnsigned
  have hpos : (0 : Int) < ((2 ^ bits : Nat) : Int) := by positivity
  have h1 := Int.emod_nonneg x hpos.ne'
  have h2 := Int.emod_lt_of_pos x hpos
  omega

theorem wrapUnsigned_cast (bits : Nat) (x : Int) :
    ((wrapUnsigned bits x : Nat) : Int) = x % ((2 ^ bits : Nat) : Int) := by
  unfold wrapUnsigned
  have hpos : (0 : Int) < ((2 ^ bits : Nat) : Int) := by positivity
  have h1 := Int.emod_nonneg x hpos.ne'
  omega

theorem wrapUnsigned_of_lt (bits : Nat) (a : Nat) (h : a < 2 ^ bits) :
    wrapUnsigned bits (a : Int) = a := by
  unfold wrapUnsigned
  have h1 : ((a : Int)) % ((2 ^ bits : Nat) : Int) = a :=
    Int.emod_eq_of_lt (by positivity) (by exact_mod_cast h)
  rw [h1]
  simp

theorem wrapUnsigned_add_wrap (bits : Nat) (x d : Int) :
    wrapUnsigned bits ((wrapUnsigned bits x : Int) + d) = wrapUnsigned bits (x + d) := by
  unfold wrapUnsigned
  have hpos : (0 : Int) < ((2 ^ bits : Nat) : Int) := by positivity
  have h1 := Int.emod_nonneg x hpos.ne'
  rw [Int.toNat_of_nonneg h1, Int.emod_add_emod]

theorem tdiv_bounds_nonneg (a b : Int) (ha : 0 ≤ a) (hb : 0 < b) :
    0 ≤ Int.tdiv a b ∧ b * Int.tdiv a b ≤ a ∧ a < b * Int.tdiv a b + b := by
  have h1 := Int.tdiv_add_tmod a b
  have h2 := Int.tmod_nonneg b ha
  have h3 := Int.tmod_lt_of_pos a hb
  have h4 : Int.tdiv a b = a / b := Int.tdiv_eq_ediv ha hb.le
  have h5 : 0 ≤ a / b := Int.ediv_nonneg ha hb.le
  refine ⟨by omega, by omega, by omega⟩

theorem tdiv_bounds_nonpos (a b : Int) (ha : a ≤ 0) (hb : 0 < b) :
    Int.tdiv a b ≤ 0 ∧ a ≤ b * Int.tdiv a b ∧ b * Int.tdiv a b - b < a := by
  have h := tdiv_bounds_nonneg (-a) b (by omega) hb
  rw [Int.neg_tdiv] at h
  obtain ⟨h1, h2, h3⟩ := h
  rw [Int.mul_neg] at h2 h3
  refine ⟨by omega, by omega, by omega⟩

theorem tdiv_two (d : Int) :
    (0 ≤ d → Int.tdiv d 2 = d / 2) ∧ (d ≤ 0 → Int.tdiv d 2 = -((-d) / 2)) := by
  constructor
  · intro h
    exact Int.tdiv_eq_ediv h (by decide)
  · intro h
    have := Int.neg_tdiv (-d) 2
    rw [Int.neg_neg] at this
    rw [this, Int.tdiv_eq_ediv (by omega) (by decide)]

theorem tdiv_abs_le (a b : Int) (hb : 0 < b) :
    (0 ≤ a → Int.tdiv a b ≤ a) ∧ (a ≤ 0 → a ≤ Int.tdiv a b) := by
  constructor
  · intro ha
    rw [Int.tdiv_eq_ediv ha hb.le]
    exact Int.ediv_le_self b ha
  · intro ha
    have h := Int.neg_tdiv (-a) b
    rw [Int.neg_neg] at h
    rw [h, Int.tdiv_eq_ediv (by omega) hb.le]
    have := Int.ediv_le_self b (show 0 ≤ -a by omega)
    omega

/-! ## The iteration in closed form -/

theorem stepN_deltaValue (v : Variant) (k : Nat) (c : Computations) :
    (stepN v k c).deltaValue = c.deltaValue := by
  induction k with
  | zero => rfl
  | succ k ih => simpa [stepN, step] using ih

theorem stepN_accumulatedValue (v : Variant) (k : Nat) (c : Computations)
    (h : c.accumulatedValue < 2 ^ accumulatorBits v) :
    (stepN v k c).accumulatedValue =
      wrapUnsigned (accumulatorBits v) ((c.accumulatedValue : Int) + (k : Int) * c.deltaValue) := by
  induction k with
  | zero => simp [stepN, wrapUnsigned_of_lt _ _ h]
  | succ k ih =>
    simp only [stepN, step]
    rw [stepN_deltaValue, ih, wrapUnsigned_add_wrap]
    congr 1
    push_cast
    ring

theorem output_eq (v : Variant) (c : Computations) (k : Nat) (hk : 1 ≤ k)
    (h : c.accumulatedValue < 2 ^ accumulatorBits v) :
    output v c k =
      (wrapUnsigned (accumulatorBits v) ((c.accumulatedValue : Int) + (k : Int) * c.deltaValue)
        / 2 ^ fractionalBits v) % 2 ^ valueBits v := by
  obtain ⟨j, rfl⟩ : ∃ j, k = j + 1 := ⟨k - 1, by omega⟩
  have := stepN_accumulatedValue v (j + 1) c h
  simp only [stepN, step] at this
  simp only [output, step, Nat.add_sub_cancel]
  rw [this]

/-! ## The state stored by `initialize` -/

theorem initialise_eq (v : Variant) (s e n : Nat)
    (hs : s < 2 ^ valueBits v) (he : e < 2 ^ valueBits v)
    (hn0 : 0 < n) (hn : n < 2 ^ (divisorBits v - 1)) :
    initialise v s e n = some
      { accumulatedValue := wrapUnsigned (accumulatorBits v)
          ((s : Int) * ((2 ^ fractionalBits v : Nat) : Int) + Int.tdiv (storedDelta v s e n) 2)
        deltaValue := storedDelta v s e n } := by
  have hn1 : (0 : Int) < (n : Int) := by exact_mod_cast hn0
  have hdiv : wrapSigned (divisorBits v) (n : Int) = n := by
    cases v <;> simp only [divisorBits, wrapSigned] at hn ⊢ <;> omega
  have hdelta : wrapSigned (accumulatorBits v)
      (((e : Int) - (s : Int)) * ((2 ^ fractionalBits v : Nat) : Int))
        = ((e : Int) - (s : Int)) * ((2 ^ fractionalBits v : Nat) : Int) := by
    cases v <;> simp only [valueBits, accumulatorBits, fractionalBits, wrapSigned] at hs he ⊢ <;>
      omega
  have hq : wrapSigned (accumulatorBits v)
      (Int.tdiv (((e : Int) - (s : Int)) * ((2 ^ fractionalBits v : Nat) : Int)) (n : Int))
        = Int.tdiv (((e : Int) - (s : Int)) * ((2 ^ fractionalBits v : Nat) : Int)) (n : Int) := by
    have h1 := tdiv_abs_le (((e : Int) - (s : Int)) * ((2 ^ fractionalBits v : Nat) : Int)) n hn1
    have h2 := tdiv_bounds_nonneg (((e : Int) - (s : Int)) * ((2 ^ fractionalBits v : Nat) : Int)) n
    have h3 := tdiv_bounds_nonpos (((e : Int) - (s : Int)) * ((2 ^ fractionalBits v : Nat) : Int)) n
    generalize Int.tdiv (((e : Int) - (s : Int)) * ((2 ^ fractionalBits v : Nat) : Int)) (n : Int)
      = q at h1 h2 h3 ⊢
    cases v <;> simp only [valueBits, accumulatorBits, fractionalBits, wrapSigned] at hs he h1 h2 h3 ⊢ <;>
      omega
  unfold initialise storedDelta
  simp only [hdiv, hdelta, hq]
  rw [if_neg (by omega)]

theorem initialise_same (v : Variant) (val n : Nat) (hv : val < 2 ^ valueBits v)
    (hn0 : 0 < n) (hn : n < 2 ^ stepBits v) :
    initialise v val val n = some
      { accumulatedValue := val * 2 ^ fractionalBits v, deltaValue := -1 } := by
  have hdiv : wrapSigned (divisorBits v) (n : Int) ≠ 0 := by
    cases v <;> simp only [divisorBits, stepBits, wrapSigned] at hn ⊢ <;> omega
  have hzero : wrapSigned (accumulatorBits v) 0 = 0 := by
    cases v <;> simp only [accumulatorBits, wrapSigned] <;> omega
  have hacc : wrapUnsigned (accumulatorBits v)
      ((val : Int) * ((2 ^ fractionalBits v : Nat) : Int)) = val * 2 ^ fractionalBits v := by
    have h := wrapUnsigned_of_lt (accumulatorBits v) (val * 2 ^ fractionalBits v)
      (by cases v <;> simp only [valueBits, accumulatorBits, fractionalBits] at hv ⊢ <;> omega)
    rw [← h]
    push_cast
    rfl
  unfold initialise
  simp only [sub_self, zero_mul, hzero, Int.zero_tdiv, if_neg hdiv, if_true, lt_self_iff_false,
    gt_iff_lt, if_false]
  have h2 : Int.tdiv (-1) 2 = 0 := by decide
  rw [h2, add_zero, hacc]

theorem initialise_isSome (v : Variant) (s e n : Nat) (hn0 : 0 < n) (hn : n < 2 ^ stepBits v) :
    ∃ c, initialise v s e n = some c := by
  have hdiv : wrapSigned (divisorBits v) (n : Int) ≠ 0 := by
    cases v <;> simp only [divisorBits, stepBits, wrapSigned] at hn ⊢ <;> omega
  unfold initialise
  simp only [if_neg hdiv]
  exact ⟨_, rfl⟩

/-! ## Claims about the stored delta -/

/-- C3 (counterexample): on the 8-bit variant `initialize(7, 7, 5)` stores
`deltaValue = -1`, not `+1`. -/
theorem tie_delta_counterexample :
    ∃ c, initialise Variant.fixed8 7 7 5 = some c ∧ c.deltaValue = -1 ∧ c.deltaValue ≠ 1 :=
  ⟨{ accumulatedValue := 896, deltaValue := -1 }, by decide, rfl, by decide⟩

/-- C3 (amended): for every fixed-point variant, every value `val` of the value
type and every `steps > 0` of the step type, `initialize(val, val, steps)`
stores `deltaValue = -1`: on a tie the forced minimal delta is negative. -/
theorem tie_delta_is_minus_one (v : Variant) (val n : Nat) (hv : val < 2 ^ valueBits v)
    (hn0 : 0 < n) (hn : n < 2 ^ stepBits v) :
    ∃ c, initialise v val val n = some c ∧ c.deltaValue = -1 :=
  ⟨_, initialise_same v val n hv hn0 hn, rfl⟩

theorem tie_delta_is_minus_one_witness :
    ∃ c, initialise Variant.fixed16 40000 40000 70000 = some c ∧ c.deltaValue = -1 :=
  tie_delta_is_minus_one Variant.fixed16 40000 70000 (by decide) (by decide) (by decide)

/-- C4: for each fixed-point variant and all `start`, `end` and `steps > 0` of
the step type, `initialize(start, end, steps)` completes and the `deltaValue`
it stores is not zero. -/
theorem deltaValue_ne_zero (v : Variant) (s e n : Nat) (hn0 : 0 < n) (hn : n < 2 ^ stepBits v) :
    ∃ c, initialise v s e n = some c ∧ c.deltaValue ≠ 0 := by
  have hdiv : wrapSigned (divisorBits v) (n : Int) ≠ 0 := by
    cases v <;> simp only [divisorBits, stepBits, wrapSigned] at hn ⊢ <;> omega
  unfold initialise
  simp only [if_neg hdiv]
  refine ⟨_, rfl, ?_⟩
  simp only
  split_ifs with h1 h2
  · decide
  · decide
  · exact h1

theorem deltaValue_ne_zero_witness :
    ∃ c, initialise Variant.fixed8 200 10 65535 = some c ∧ c.deltaValue ≠ 0 :=
  deltaValue_ne_zero Variant.fixed8 200 10 65535 (by decide) (by decide)

/-! ## `reset` -/

theorem stepN_succ_lt (v : Variant) (k : Nat) (c : Computations) :
    (stepN v (k + 1) c).accumulatedValue < 2 ^ accumulatorBits v := by
  simp only [stepN, step]
  exact wrapUnsigned_lt _ _

theorem output_eq_of_stepN (v : Variant) (c : Computations) (k : Nat) (hk : 1 ≤ k) :
    output v c k = ((stepN v k c).accumulatedValue / 2 ^ fractionalBits v) % 2 ^ valueBits v := by
  obtain ⟨j, rfl⟩ : ∃ j, k = j + 1 := ⟨k - 1, by omega⟩
  simp only [output, stepN, step, Nat.add_sub_cancel]

/-- C5: `reset()` freezes the output.  In every state reached by
`initialize(start, end, steps)` followed by `k ≥ 1` calls of `step()`, after
`reset()` call number `j` of `step()`, for every `j ≥ 1`, returns the value
returned by the last `step()` before the `reset()`, and the accumulator after
those `j` calls is the accumulator at the `reset()`. -/
theorem reset_freezes_output (v : Variant) (s e n k j : Nat)
    (hn0 : 0 < n) (hn : n < 2 ^ stepBits v) (hk : 1 ≤ k) (hj : 1 ≤ j) :
    ∃ c, initialise v s e n = some c ∧
      output v (reset (stepN v k c)) j = output v c k ∧
      (stepN v j (reset (stepN v k c))).accumulatedValue = (stepN v k c).accumulatedValue := by
  obtain ⟨c, hc⟩ := initialise_isSome v s e n hn0 hn
  refine ⟨c, hc, ?_⟩
  obtain ⟨i, rfl⟩ : ∃ i, k = i + 1 := ⟨k - 1, by omega⟩
  have hlt := stepN_succ_lt v i c
  have hacc : (stepN v j (reset (stepN v (i + 1) c))).accumulatedValue
      = (stepN v (i + 1) c).accumulatedValue := by
    rw [stepN_accumulatedValue v j _ (by simpa [reset] using hlt)]
    simp only [reset, mul_zero, add_zero]
    exact wrapUnsigned_of_lt _ _ hlt
  refine ⟨?_, hacc⟩
  rw [output_eq_of_stepN v _ j hj, hacc, output_eq_of_stepN v c (i + 1) (by omega)]

theorem reset_freezes_output_witness :
    ∃ c, initialise Variant.fixed8 0 100 200 = some c ∧
      output Variant.fixed8 (reset (stepN Variant.fixed8 3 c)) 5 = output Variant.fixed8 c 3 ∧
      (stepN Variant.fixed8 5 (reset (stepN Variant.fixed8 3 c))).accumulatedValue
        = (stepN Variant.fixed8 3 c).accumulatedValue :=
  reset_freezes_output Variant.fixed8 0 100 200 3 5 (by decide) (by decide) (by decide) (by decide)

/-! ## Concrete scenarios -/

/-- C8: on the 8-bit variant, after `initialize(0, 100, 200)` call number 100
of `step()` returns 50 and call number 200 returns 100, each within 1 of the
value the scenario names. -/
theorem scenario_fixed8_0_100_200 :
    ∃ c, initialise Variant.fixed8 0 100 200 = some c ∧
      output Variant.fixed8 c 100 = 50 ∧ output Variant.fixed8 c 200 = 100 ∧
      withinOne (output Variant.fixed8 c 100) 50 ∧ withinOne (output Variant.fixed8 c 200) 100 := by
  refine ⟨{ accumulatedValue := 32, deltaValue := 64 }, by decide, ?_⟩
  have h100 : output Variant.fixed8 { accumulatedValue := 32, deltaValue := 64 } 100 = 50 := by
    rw [output_eq _ _ _ (by decide) (by decide)]
    decide
  have h200 : output Variant.fixed8 { accumulatedValue := 32, deltaValue := 64 } 200 = 100 := by
    rw [output_eq _ _ _ (by decide) (by decide)]
    decide
  rw [h100, h200]
  exact ⟨rfl, rfl, by decide, by decide⟩

/-- C9 (counterexample): with the default (float) computations, after
`initialize(1.0, 2.0, 4)` the first call of `step()` returns 1.375, not 1.125. -/
theorem scenario_float_counterexample :
    ∃ c, initialiseFloat (1 / 8388608) 1 2 4 = some c ∧
      outputFloat c 1 = 11 / 8 ∧ outputFloat c 1 ≠ 9 / 8 := by
  refine ⟨{ accumulatedValue := 9 / 8, deltaValue := 1 / 4 }, ?_, ?_, ?_⟩
  · simp only [initialiseFloat]
    norm_num
  · simp only [outputFloat, stepFloat, stepNFloat]
    norm_num
  · simp only [outputFloat, stepFloat, stepNFloat]
    norm_num

/-- C9 (amended): with the default (float) computations, whatever the value of
`epsilon`, `initialize(1.0, 2.0, 4)` sets the delta to 0.25 and the accumulator
to 1.125, and the four following calls of `step()` return 1.375, 1.625, 1.875
and 2.125 in that order: `step()` adds the delta before it returns. -/
theorem scenario_float_outputs (epsilon : ℚ) :
    ∃ c, initialiseFloat epsilon 1 2 4 = some c ∧
      c.deltaValue = 1 / 4 ∧ c.accumulatedValue = 9 / 8 ∧
      outputFloat c 1 = 11 / 8 ∧ outputFloat c 2 = 13 / 8 ∧
      outputFloat c 3 = 15 / 8 ∧ outputFloat c 4 = 17 / 8 := by
  refine ⟨{ accumulatedValue := 9 / 8, deltaValue := 1 / 4 }, ?_, rfl, rfl, ?_, ?_, ?_, ?_⟩
  · simp only [initialiseFloat]
    norm_num
  all_goals
    simp only [outputFloat, stepFloat, stepNFloat]
    norm_num

/-! ## More steps than the ceiling (8-bit) -/

theorem tdiv_eq_zero_of_abs_lt (a b : Int) (h1 : -b < a) (h2 : a < b) : Int.tdiv a b = 0 := by
  rcases le_or_lt 0 a with ha | ha
  · exact Int.tdiv_eq_zero_of_lt ha h2
  · have h := Int.neg_tdiv (-a) b
    rw [Int.neg_neg] at h
    rw [h, Int.tdiv_eq_zero_of_lt (by omega) (by omega)]
    rfl

/-- C10: on the 8-bit variant, for all `start ≠ end` and every `steps` with
`128 * |end - start| < steps ≤ 32767`, `initialize(start, end, steps)` stores
`deltaValue = +1` when `end > start` and `-1` when `end < start`, and call number
`128 * |end - start|` of `step()`, which is fewer than `steps` calls, returns
`end` exactly. -/
theorem too_many_steps_finish_early (s e n : Nat) (hs : s < 256) (he : e < 256) (hse : s ≠ e)
    (hlo : 128 * absDiff s e < n) (hhi : n ≤ 32767) :
    ∃ c, initialise Variant.fixed8 s e n = some c ∧
      c.deltaValue = (if s < e then 1 else -1) ∧
      output Variant.fixed8 c (128 * absDiff s e) = e ∧
      128 * absDiff s e < n := by
  have hq : Int.tdiv (((e : Int) - (s : Int)) * ((2 ^ 7 : Nat) : Int)) (n : Int) = 0 := by
    apply tdiv_eq_zero_of_abs_lt <;> (unfold absDiff at hlo; split_ifs at hlo <;> omega)
  have hd : storedDelta Variant.fixed8 s e n = if s < e then 1 else -1 := by
    simp only [storedDelta, fractionalBits, hq, if_true]
    split_ifs <;> omega
  have hinit := initialise_eq Variant.fixed8 s e n (by simpa [valueBits] using hs)
    (by simpa [valueBits] using he) (by omega) (by simp only [divisorBits]; omega)
  rw [hd] at hinit
  refine ⟨_, hinit, rfl, ?_, hlo⟩
  have hk : 1 ≤ 128 * absDiff s e := by
    unfold absDiff
    split_ifs <;> omega
  rw [output_eq _ _ _ hk (wrapUnsigned_lt _ _), wrapUnsigned_add_wrap]
  simp only [accumulatorBits, fractionalBits, valueBits, wrapUnsigned]
  have h1 : Int.tdiv 1 2 = 0 := by decide
  have h2 : Int.tdiv (-1) 2 = 0 := by decide
  unfold absDiff at hlo ⊢
  split_ifs with h3 h4 h4
  · simp only [h1]
    push_cast
    omega
  · omega
  · omega
  · simp only [h2]
    push_cast
    omega

theorem too_many_steps_finish_early_witness :
    ∃ c, initialise Variant.fixed8 10 12 300 = some c ∧
      c.deltaValue = (if 10 < 12 then 1 else -1) ∧
      output Variant.fixed8 c (128 * absDiff 10 12) = 12 ∧
      128 * absDiff 10 12 < 300 :=
  too_many_steps_finish_early 10 12 300 (by decide) (by decide) (by decide) (by decide) (by decide)

/-! ## The stored delta below the step ceiling -/

theorem storedDelta_up (v : Variant) (s e n : Nat) (hse : s < e) (hn0 : 0 < n)
    (hceil : n ≤ 2 ^ fractionalBits v * absDiff s e) :
    1 ≤ storedDelta v s e n ∧
      (n : Int) * storedDelta v s e n ≤ ((e : Int) - s) * ((2 ^ fractionalBits v : Nat) : Int) ∧
      ((e : Int) - s) * ((2 ^ fractionalBits v : Nat) : Int) < (n : Int) * storedDelta v s e n + n := by
  have hn1 : (0 : Int) < (n : Int) := by exact_mod_cast hn0
  have hD : (n : Int) ≤ ((e : Int) - s) * ((2 ^ fractionalBits v : Nat) : Int) := by
    have h : absDiff s e = e - s := by simp [absDiff, hse.le]
    rw [h] at hceil
    have h2 : ((n : Nat) : Int) ≤ ((2 ^ fractionalBits v * (e - s) : Nat) : Int) := by
      exact_mod_cast hceil
    rw [Nat.cast_mul, Nat.cast_sub hse.le] at h2
    rw [mul_comm]
    exact h2
  obtain ⟨h1, h2, h3⟩ :=
    tdiv_bounds_nonneg (((e : Int) - s) * ((2 ^ fractionalBits v : Nat) : Int)) n (by omega) hn1
  have hq : Int.tdiv (((e : Int) - s) * ((2 ^ fractionalBits v : Nat) : Int)) n ≠ 0 := by
    intro h0
    rw [h0, mul_zero] at h3
    omega
  simp only [storedDelta, if_neg hq]
  exact ⟨by omega, h2, h3⟩

theorem storedDelta_down (v : Variant) (s e n : Nat) (hse : e < s) (hn0 : 0 < n)
    (hceil : n ≤ 2 ^ fractionalBits v * absDiff s e) :
    storedDelta v s e n ≤ -1 ∧
      ((e : Int) - s) * ((2 ^ fractionalBits v : Nat) : Int) ≤ (n : Int) * storedDelta v s e n ∧
      (n : Int) * storedDelta v s e n - n < ((e : Int) - s) * ((2 ^ fractionalBits v : Nat) : Int) := by
  have hn1 : (0 : Int) < (n : Int) := by exact_mod_cast hn0
  have hD : ((e : Int) - s) * ((2 ^ fractionalBits v : Nat) : Int) ≤ -(n : Int) := by
    have h : absDiff s e = s - e := by simp [absDiff, not_le.mpr hse]
    rw [h] at hceil
    have h2 : ((n : Nat) : Int) ≤ ((2 ^ fractionalBits v * (s - e) : Nat) : Int) := by
      exact_mod_cast hceil
    rw [Nat.cast_mul, Nat.cast_sub hse.le] at h2
    have h3 : ((e : Int) - s) * ((2 ^ fractionalBits v : Nat) : Int)
        = -(((2 ^ fractionalBits v : Nat) : Int) * ((s : Int) - e)) := by ring
    rw [h3]
    omega
  obtain ⟨h1, h2, h3⟩ :=
    tdiv_bounds_nonpos (((e : Int) - s) * ((2 ^ fractionalBits v : Nat) : Int)) n (by omega) hn1
  have hq : Int.tdiv (((e : Int) - s) * ((2 ^ fractionalBits v : Nat) : Int)) n ≠ 0 := by
    intro h0
    rw [h0, mul_zero] at h3
    omega
  simp only [storedDelta, if_neg hq]
  exact ⟨by omega, h2, h3⟩

theorem storedDelta_up_le (v : Variant) (s e n : Nat) (hse : s < e) (hn0 : 0 < n)
    (hceil : n ≤ 2 ^ fractionalBits v * absDiff s e) (habs : absDiff s e ≤ n) :
    storedDelta v s e n ≤ ((2 ^ fractionalBits v : Nat) : Int) := by
  have hn1 : (0 : Int) < (n : Int) := by exact_mod_cast hn0
  obtain ⟨-, h2, -⟩ := storedDelta_up v s e n hse hn0 hceil
  have h : absDiff s e = e - s := by simp [absDiff, hse.le]
  rw [h] at habs
  have h3 : (e : Int) - s ≤ n := by omega
  have h4 : ((e : Int) - s) * ((2 ^ fractionalBits v : Nat) : Int)
      ≤ (n : Int) * ((2 ^ fractionalBits v : Nat) : Int) :=
    mul_le_mul_of_nonneg_right h3 (by positivity)
  exact le_of_mul_le_mul_left (h2.trans h4) hn1

theorem storedDelta_down_ge (v : Variant) (s e n : Nat) (hse : e < s) (hn0 : 0 < n)
    (hceil : n ≤ 2 ^ fractionalBits v * absDiff s e) (habs : absDiff s e ≤ n) :
    -((2 ^ fractionalBits v : Nat) : Int) ≤ storedDelta v s e n := by
  have hn1 : (0 : Int) < (n : Int) := by exact_mod_cast hn0
  obtain ⟨-, h2, -⟩ := storedDelta_down v s e n hse hn0 hceil
  have h : absDiff s e = s - e := by simp [absDiff, not_le.mpr hse]
  rw [h] at habs
  have h3 : -(n : Int) ≤ (e : Int) - s := by omega
  have h4 : -(n : Int) * ((2 ^ fractionalBits v : Nat) : Int)
      ≤ ((e : Int) - s) * ((2 ^ fractionalBits v : Nat) : Int) :=
    mul_le_mul_of_nonneg_right h3 (by positivity)
  have h5 : (n : Int) * (-((2 ^ fractionalBits v : Nat) : Int)) ≤ (n : Int) * storedDelta v s e n := by
    have h6 : (n : Int) * (-((2 ^ fractionalBits v : Nat) : Int))
        = -(n : Int) * ((2 ^ fractionalBits v : Nat) : Int) := by ring
    rw [h6]
    exact h4.trans h2
  exact le_of_mul_le_mul_left h5 hn1

/-! ## Monotonicity -/

/-- C2 (counterexample): within the step ceiling, on the 8-bit variant the
outputs after `initialize(251, 255, 2)` are 254 then 0 (not non-decreasing) and
the outputs after `initialize(1, 0, 2)` are 0 then 255 (not non-increasing); on
the 32-bit variant the outputs after `initialize(0, 4294967295, 2147483648)`
are 4294967293 then 4294967291 (not non-decreasing). -/
theorem monotonic_counterexample :
    (∃ c, initialise Variant.fixed8 251 255 2 = some c ∧
      2 ≤ 2 ^ fractionalBits Variant.fixed8 * absDiff 251 255 ∧
      output Variant.fixed8 c 1 = 254 ∧ output Variant.fixed8 c 2 = 0 ∧
      ¬ output Variant.fixed8 c 1 ≤ output Variant.fixed8 c 2) ∧
    (∃ c, initialise Variant.fixed8 1 0 2 = some c ∧
      2 ≤ 2 ^ fractionalBits Variant.fixed8 * absDiff 1 0 ∧
      output Variant.fixed8 c 1 = 0 ∧ output Variant.fixed8 c 2 = 255 ∧
      ¬ output Variant.fixed8 c 2 ≤ output Variant.fixed8 c 1) ∧
    (∃ c, initialise Variant.fixed32 0 4294967295 2147483648 = some c ∧
      2147483648 ≤ 2 ^ fractionalBits Variant.fixed32 * absDiff 0 4294967295 ∧
      output Variant.fixed32 c 1 = 4294967293 ∧ output Variant.fixed32 c 2 = 4294967291 ∧
      ¬ output Variant.fixed32 c 1 ≤ output Variant.fixed32 c 2) :=
  ⟨⟨{ accumulatedValue := 32256, deltaValue := 256 }, by decide, by decide, by decide, by decide,
      by decide⟩,
    ⟨{ accumulatedValue := 96, deltaValue := -64 }, by decide, by decide, by decide, by decide,
      by decide⟩,
    ⟨{ accumulatedValue := 18446744073709486081, deltaValue := -131071 }, by decide, by decide,
      by decide, by decide, by decide⟩⟩

/-- C2 (amended): for each fixed-point variant and all `start`, `end`, `steps`
with `1 ≤ steps ≤ 2^f * |end - start|` (and `steps < 2^31` on the 32-bit
variant, where the ceiling exceeds the range of the signed divisor), the outputs
of calls `i ≤ j` of `step()` are ordered in the direction of `end - start`
whenever `j ≤ steps - 1`; call number `steps` itself continues the ordered
sequence when in addition `|end - start| ≤ steps` and `end ≥ 1`. -/
theorem outputs_monotonic (v : Variant) (s e n i j : Nat)
    (hs : s < 2 ^ valueBits v) (he : e < 2 ^ valueBits v)
    (hn1 : 1 ≤ n) (hceil : n ≤ 2 ^ fractionalBits v * absDiff s e)
    (hcast : n < 2 ^ (divisorBits v - 1))
    (hi : 1 ≤ i) (hij : i ≤ j) (hj : j ≤ n)
    (hlast : j = n → absDiff s e ≤ n ∧ 1 ≤ e) :
    ∃ c, initialise v s e n = some c ∧
      (s < e → output v c i ≤ output v c j) ∧
      (e < s → output v c j ≤ output v c i) := by
  refine ⟨_, initialise_eq v s e n hs he hn1 hcast, ?_, ?_⟩
  · intro hse
    obtain ⟨hd1, hd2, hd3⟩ := storedDelta_up v s e n hse hn1 hceil
    rw [output_eq _ _ i hi (wrapUnsigned_lt _ _),
      output_eq _ _ j (hi.trans hij) (wrapUnsigned_lt _ _)]
    simp only [wrapUnsigned_add_wrap]
    rw [(tdiv_two _).1 (by omega)]
    have hp0 : (1 : Int) * storedDelta v s e n ≤ (i : Int) * storedDelta v s e n :=
      mul_le_mul_of_nonneg_right (by exact_mod_cast hi) (by omega)
    have hp1 : (i : Int) * storedDelta v s e n ≤ (j : Int) * storedDelta v s e n :=
      mul_le_mul_of_nonneg_right (by exact_mod_cast hij) (by omega)
    rw [one_mul] at hp0
    rcases Nat.lt_or_eq_of_le hj with hjn | hjn
    · have hp2 : ((j : Int) + 1) * storedDelta v s e n ≤ (n : Int) * storedDelta v s e n :=
        mul_le_mul_of_nonneg_right (by exact_mod_cast hjn) (by omega)
      rw [add_mul, one_mul] at hp2
      generalize storedDelta v s e n = d at hd1 hd2 hd3 hp0 hp1 hp2 ⊢
      generalize (i : Int) * d = pi at hp0 hp1 ⊢
      generalize (j : Int) * d = pj at hp1 hp2 ⊢
      generalize (n : Int) * d = pn at hd2 hd3 hp2
      cases v <;>
        simp only [valueBits, fractionalBits, accumulatorBits, wrapUnsigned] at hs he hd2 hd3 ⊢ <;>
        omega
    · obtain ⟨habs, he1⟩ := hlast hjn
      have hdF := storedDelta_up_le v s e n hse hn1 hceil habs
      subst hjn
      generalize storedDelta v s e j = d at hd1 hd2 hd3 hp0 hp1 hdF ⊢
      generalize (i : Int) * d = pi at hp0 hp1 ⊢
      generalize (j : Int) * d = pj at hp1 hd2 hd3 ⊢
      cases v <;>
        simp only [valueBits, fractionalBits, accumulatorBits, wrapUnsigned]
          at hs he hd2 hd3 hdF ⊢ <;>
        omega
  · intro hse
    obtain ⟨hd1, hd2, hd3⟩ := storedDelta_down v s e n hse hn1 hceil
    rw [output_eq _ _ i hi (wrapUnsigned_lt _ _),
      output_eq _ _ j (hi.trans hij) (wrapUnsigned_lt _ _)]
    simp only [wrapUnsigned_add_wrap]
    rw [(tdiv_two _).2 (by omega)]
    have hp0 : (i : Int) * storedDelta v s e n ≤ (1 : Int) * storedDelta v s e n :=
      mul_le_mul_of_nonpos_right (by exact_mod_cast hi) (by omega)
    have hp1 : (j : Int) * storedDelta v s e n ≤ (i : Int) * storedDelta v s e n :=
      mul_le_mul_of_nonpos_right (by exact_mod_cast hij) (by omega)
    rw [one_mul] at hp0
    rcases Nat.lt_or_eq_of_le hj with hjn | hjn
    · have hp2 : (n : Int) * storedDelta v s e n ≤ ((j : Int) + 1) * storedDelta v s e n :=
        mul_le_mul_of_nonpos_right (by exact_mod_cast hjn) (by omega)
      rw [add_mul, one_mul] at hp2
      generalize storedDelta v s e n = d at hd1 hd2 hd3 hp0 hp1 hp2 ⊢
      generalize (i : Int) * d = pi at hp0 hp1 ⊢
      generalize (j : Int) * d = pj at hp1 hp2 ⊢
      generalize (n : Int) * d = pn at hd2 hd3 hp2
      cases v <;>
        simp only [valueBits, fractionalBits, accumulatorBits, wrapUnsigned] at hs he hd2 hd3 ⊢ <;>
        omega
    · obtain ⟨habs, he1⟩ := hlast hjn
      have hdF := storedDelta_down_ge v s e n hse hn1 hceil habs
      subst hjn
      generalize storedDelta v s e j = d at hd1 hd2 hd3 hp0 hp1 hdF ⊢
      generalize (i : Int) * d = pi at hp0 hp1 ⊢
      generalize (j : Int) * d = pj at hp1 hd2 hd3 ⊢
      cases v <;>
        simp only [valueBits, fractionalBits, accumulatorBits, wrapUnsigned]
          at hs he hd2 hd3 hdF ⊢ <;>
        omega

theorem outputs_monotonic_witness :
    ∃ c, initialise Variant.fixed8 0 100 200 = some c ∧
      (0 < 100 → output Variant.fixed8 c 3 ≤ output Variant.fixed8 c 200) ∧
      (100 < 0 → output Variant.fixed8 c 200 ≤ output Variant.fixed8 c 3) :=
  outputs_monotonic Variant.fixed8 0 100 200 3 200 (by decide) (by decide) (by decide)
    (by decide) (by decide) (by decide) (by decide) (by decide) (fun _ => by decide)

/-! ## The last output -/

/-- C1 (counterexample): on the 8-bit variant, within the step ceiling, call
number `steps` returns 126 after `initialize(0, 255, 1)`, returns 1 after
`initialize(0, 3, 193)` and returns 255 after `initialize(1, 0, 1)`; none is
within one unit of `end`. -/
theorem final_output_counterexample :
    (∃ c, initialise Variant.fixed8 0 255 1 = some c ∧
      1 ≤ 2 ^ fractionalBits Variant.fixed8 * absDiff 0 255 ∧
      output Variant.fixed8 c 1 = 126 ∧ ¬ withinOne (output Variant.fixed8 c 1) 255) ∧
    (∃ c, initialise Variant.fixed8 0 3 193 = some c ∧
      193 ≤ 2 ^ fractionalBits Variant.fixed8 * absDiff 0 3 ∧
      output Variant.fixed8 c 193 = 1 ∧ ¬ withinOne (output Variant.fixed8 c 193) 3) ∧
    (∃ c, initialise Variant.fixed8 1 0 1 = some c ∧
      1 ≤ 2 ^ fractionalBits Variant.fixed8 * absDiff 1 0 ∧
      output Variant.fixed8 c 1 = 255 ∧ ¬ withinOne (output Variant.fixed8 c 1) 0) := by
  refine ⟨⟨{ accumulatedValue := 16320, deltaValue := 32640 }, by decide, by decide, ?_⟩,
    ⟨{ accumulatedValue := 0, deltaValue := 1 }, by decide, by decide, ?_⟩,
    ⟨{ accumulatedValue := 64, deltaValue := -128 }, by decide, by decide, ?_⟩⟩
  · have h : output Variant.fixed8 { accumulatedValue := 16320, deltaValue := 32640 } 1 = 126 := by
      decide
    rw [h]
    exact ⟨rfl, by decide⟩
  · have h : output Variant.fixed8 { accumulatedValue := 0, deltaValue := 1 } 193 = 1 := by
      rw [output_eq _ _ _ (by decide) (by decide)]
      decide
    rw [h]
    exact ⟨rfl, by decide⟩
  · have h : output Variant.fixed8 { accumulatedValue := 64, deltaValue := -128 } 1 = 255 := by
      decide
    rw [h]
    exact ⟨rfl, by decide⟩

/-- C1 (amended): for each fixed-point variant and all `start ≠ end`, `steps`
with `|end - start| ≤ steps ≤ 2^f` and `end ≥ 1`, call number `steps` of
`step()` after `initialize(start, end, steps)` returns `end` or `end - 1`, so it
differs from `end` by at most one unit. -/
theorem final_output_near_end (v : Variant) (s e n : Nat)
    (hs : s < 2 ^ valueBits v) (he : e < 2 ^ valueBits v) (hse : s ≠ e) (he1 : 1 ≤ e)
    (hlo : absDiff s e ≤ n) (hhi : n ≤ 2 ^ fractionalBits v) :
    ∃ c, initialise v s e n = some c ∧
      (output v c n = e ∨ output v c n + 1 = e) ∧ withinOne (output v c n) e := by
  have habs1 : 1 ≤ absDiff s e := by
    unfold absDiff
    split_ifs <;> omega
  have hn1 : 1 ≤ n := habs1.trans hlo
  have hceil : n ≤ 2 ^ fractionalBits v * absDiff s e :=
    hhi.trans (Nat.le_mul_of_pos_right _ habs1)
  have hcast : n < 2 ^ (divisorBits v - 1) := by
    cases v <;> simp only [divisorBits, fractionalBits] at hhi ⊢ <;> omega
  have hn2 : (n : Int) ≤ ((2 ^ fractionalBits v : Nat) : Int) := by exact_mod_cast hhi
  have key : output v
      { accumulatedValue := wrapUnsigned (accumulatorBits v)
          ((s : Int) * ((2 ^ fractionalBits v : Nat) : Int) + Int.tdiv (storedDelta v s e n) 2)
        deltaValue := storedDelta v s e n } n = e ∨
      output v
      { accumulatedValue := wrapUnsigned (accumulatorBits v)
          ((s : Int) * ((2 ^ fractionalBits v : Nat) : Int) + Int.tdiv (storedDelta v s e n) 2)
        deltaValue := storedDelta v s e n } n + 1 = e := by
    rw [output_eq _ _ n hn1 (wrapUnsigned_lt _ _)]
    simp only [wrapUnsigned_add_wrap]
    rcases Nat.lt_or_gt_of_ne hse with hlt | hgt
    · obtain ⟨hd1, hd2, hd3⟩ := storedDelta_up v s e n hlt hn1 hceil
      have hdF := storedDelta_up_le v s e n hlt hn1 hceil hlo
      rw [(tdiv_two _).1 (by omega)]
      generalize storedDelta v s e n = d at hd1 hd2 hd3 hdF ⊢
      generalize (n : Int) * d = pn at hd2 hd3 ⊢
      cases v <;>
        simp only [valueBits, fractionalBits, accumulatorBits, wrapUnsigned]
          at hs he hd2 hd3 hdF hn2 ⊢ <;>
        omega
    · obtain ⟨hd1, hd2, hd3⟩ := storedDelta_down v s e n hgt hn1 hceil
      have hdF := storedDelta_down_ge v s e n hgt hn1 hceil hlo
      rw [(tdiv_two _).2 (by omega)]
      generalize storedDelta v s e n = d at hd1 hd2 hd3 hdF ⊢
      generalize (n : Int) * d = pn at hd2 hd3 ⊢
      cases v <;>
        simp only [valueBits, fractionalBits, accumulatorBits, wrapUnsigned]
          at hs he hd2 hd3 hdF hn2 ⊢ <;>
        omega
  refine ⟨_, initialise_eq v s e n hs he hn1 hcast, key, ?_⟩
  unfold withinOne
  omega

theorem final_output_near_end_witness :
    ∃ c, initialise Variant.fixed8 10 100 128 = some c ∧
      (output Variant.fixed8 c 128 = 100 ∨ output Variant.fixed8 c 128 + 1 = 100) ∧
      withinOne (output Variant.fixed8 c 128) 100 :=
  final_output_near_end Variant.fixed8 10 100 128 (by decide) (by decide) (by decide) (by decide)
    (by decide) (by decide)

/-! ## Degenerate case `start == end` -/

/-- C6 (counterexample): on the 8-bit variant the first output after
`initialize(0, 0, 1)` is 255, and call number 129 after `initialize(5, 5, 129)`
returns 3; neither is within one unit of the start value. -/
theorem degenerate_counterexample :
    (∃ c, initialise Variant.fixed8 0 0 1 = some c ∧
      output Variant.fixed8 c 1 = 255 ∧ ¬ withinOne (output Variant.fixed8 c 1) 0) ∧
    (∃ c, initialise Variant.fixed8 5 5 129 = some c ∧
      output Variant.fixed8 c 129 = 3 ∧ ¬ withinOne (output Variant.fixed8 c 129) 5) := by
  refine ⟨⟨{ accumulatedValue := 0, deltaValue := -1 }, by decide, ?_⟩,
    ⟨{ accumulatedValue := 640, deltaValue := -1 }, by decide, ?_⟩⟩
  · have h : output Variant.fixed8 { accumulatedValue := 0, deltaValue := -1 } 1 = 255 := by
      decide
    rw [h]
    exact ⟨rfl, by decide⟩
  · have h : output Variant.fixed8 { accumulatedValue := 640, deltaValue := -1 } 129 = 3 := by
      rw [output_eq _ _ _ (by decide) (by decide)]
      decide
    rw [h]
    exact ⟨rfl, by decide⟩

/-- C6 (amended): for each fixed-point variant, every value `val ≥ 1` and every
`steps ≥ 1` of the step type, after `initialize(val, val, steps)` call number
`k` of `step()`, for every `1 ≤ k ≤ min(steps, 2^f)`, returns `val - 1`, which
differs from `val` by one unit. -/
theorem degenerate_outputs (v : Variant) (val n k : Nat)
    (hv1 : 1 ≤ val) (hv : val < 2 ^ valueBits v) (hn : n < 2 ^ stepBits v)
    (hk1 : 1 ≤ k) (hkn : k ≤ n) (hkF : k ≤ 2 ^ fractionalBits v) :
    ∃ c, initialise v val val n = some c ∧
      output v c k + 1 = val ∧ withinOne (output v c k) val := by
  have hacc : val * 2 ^ fractionalBits v < 2 ^ accumulatorBits v := by
    cases v <;> simp only [valueBits, accumulatorBits, fractionalBits] at hv ⊢ <;> omega
  have key : output v { accumulatedValue := val * 2 ^ fractionalBits v, deltaValue := -1 } k + 1
      = val := by
    rw [output_eq _ _ k hk1 hacc]
    cases v <;>
      simp only [valueBits, fractionalBits, accumulatorBits, wrapUnsigned] at hv hkF ⊢ <;>
      omega
  refine ⟨_, initialise_same v val n hv (by omega) hn, key, ?_⟩
  unfold withinOne
  omega

theorem degenerate_outputs_witness :
    ∃ c, initialise Variant.fixed16 7 7 40000 = some c ∧
      output Variant.fixed16 c 32768 + 1 = 7 ∧ withinOne (output Variant.fixed16 c 32768) 7 :=
  degenerate_outputs Variant.fixed16 7 40000 32768 (by decide) (by decide) (by decide)
    (by decide) (by decide) (by decide)

/-! ## The 16-bit scenario -/

theorem output_fixed16_scenario (k : Nat) (hk1 : 1 ≤ k) (hk : k ≤ 1000) :
    output Variant.fixed16 { accumulatedValue := 2146377155, deltaValue := -2147450 } k
      = if k = 1000 then 65503 else (2146377155 - 2147450 * k) / 32768 := by
  rw [output_eq _ _ k hk1 (by decide)]
  split_ifs with h
  · subst h
    decide
  · have hcast : ((2146377155 : Nat) : Int) + (k : Int) * (-2147450)
        = ((2146377155 - 2147450 * k : Nat) : Int) := by omega
    rw [hcast, wrapUnsigned_of_lt _ _ (by simp only [accumulatorBits]; omega)]
    simp only [valueBits, fractionalBits, Nat.reducePow]
    omega

/-- C7 (counterexample): on the 16-bit variant, after `initialize(65535, 0, 1000)`
call number 999 of `step()` returns 32 and call number 1000 returns 65503, which
is neither within one unit of 0 nor at most the output before it. -/
theorem scenario_fixed16_counterexample :
    ∃ c, initialise Variant.fixed16 65535 0 1000 = some c ∧
      output Variant.fixed16 c 999 = 32 ∧ output Variant.fixed16 c 1000 = 65503 ∧
      ¬ withinOne (output Variant.fixed16 c 1000) 0 ∧
      ¬ output Variant.fixed16 c 1000 ≤ output Variant.fixed16 c 999 := by
  refine ⟨{ accumulatedValue := 2146377155, deltaValue := -2147450 }, by decide, ?_⟩
  rw [output_fixed16_scenario 999 (by decide) (by decide),
    output_fixed16_scenario 1000 (by decide) (by decide)]
  exact ⟨by decide, by decide, by decide, by decide⟩

/-- C7 (amended): on the 16-bit variant, after `initialize(65535, 0, 1000)` the
first 999 outputs of `step()` form a non-increasing sequence that ends with 32
at call 999, and call number 1000 returns 65503: the accumulator wraps below
zero on the last call. -/
theorem scenario_fixed16_outputs (i j : Nat) (hi : 1 ≤ i) (hij : i ≤ j) (hj : j ≤ 999) :
    ∃ c, initialise Variant.fixed16 65535 0 1000 = some c ∧
      output Variant.fixed16 c j ≤ output Variant.fixed16 c i ∧
      output Variant.fixed16 c 999 = 32 ∧ output Variant.fixed16 c 1000 = 65503 := by
  refine ⟨{ accumulatedValue := 2146377155, deltaValue := -2147450 }, by decide, ?_⟩
  rw [output_fixed16_scenario 999 (by decide) (by decide),
    output_fixed16_scenario 1000 (by decide) (by decide),
    output_fixed16_scenario i hi (by omega), output_fixed16_scenario j (by omega) (by omega),
    if_neg (by omega), if_neg (by omega)]
  refine ⟨?_, by decide, by decide⟩
  omega

theorem scenario_fixed16_outputs_witness :
    ∃ c, initialise Variant.fixed16 65535 0 1000 = some c ∧
      output Variant.fixed16 c 999 ≤ output Variant.fixed16 c 1 ∧
      output Variant.fixed16 c 999 = 32 ∧ output Variant.fixed16 c 1000 = 65503 :=
  scenario_fixed16_outputs 1 999 (by decide) (by decide) (by decide)

/-! ## The parts of `initialize`, continued -/

theorem initialise_unfold (v : Variant) (s e n : Nat) :
    initialise v s e n =
      if castDivisor v n = 0 then none
      else some
        { accumulatedValue := wrapUnsigned (accumulatorBits v)
            ((s : Int) * ((2 ^ fractionalBits v : Nat) : Int) +
              Int.tdiv (if quotient v s e n = 0 then (if rawDelta v s e > 0 then 1 else -1)
                else quotient v s e n) 2)
          deltaValue := if quotient v s e n = 0 then (if rawDelta v s e > 0 then 1 else -1)
            else quotient v s e n } :=
  rfl

theorem initialiseFrom_eq (v : Variant) (prior : Computations) (s e n : Nat) :
    initialiseFrom v prior s e n = initialise v s e n := by
  rw [initialise_unfold]
  unfold initialiseFrom quotient
  by_cases hdiv : castDivisor v n = 0
  · simp only [hdiv, if_true]
  · simp only [hdiv, if_false]
    by_cases hq : wrapSigned (accumulatorBits v) (Int.tdiv (rawDelta v s e) (castDivisor v n)) = 0
    · simp only [hq, if_true]
    · simp only [hq, if_false]

theorem castDivisor_eq_zero_iff (v : Variant) (n : Nat) (hn : n < 2 ^ stepBits v) :
    castDivisor v n = 0 ↔ n = 0 := by
  cases v <;> simp only [castDivisor, divisorBits, stepBits, wrapSigned] at hn ⊢ <;> omega

theorem rawDelta_eq (v : Variant) (s e : Nat) (hs : s < 2 ^ valueBits v)
    (he : e < 2 ^ valueBits v) :
    rawDelta v s e = ((e : Int) - (s : Int)) * ((2 ^ fractionalBits v : Nat) : Int) := by
  cases v <;>
    simp only [rawDelta, valueBits, accumulatorBits, fractionalBits, wrapSigned] at hs he ⊢ <;>
    omega

theorem initialise_accumulatedValue (v : Variant) (s e n : Nat) (c : Computations)
    (h : initialise v s e n = some c) :
    c.accumulatedValue = wrapUnsigned (accumulatorBits v)
      ((s : Int) * ((2 ^ fractionalBits v : Nat) : Int) + Int.tdiv c.deltaValue 2) := by
  rw [initialise_unfold] at h
  by_cases hdiv : castDivisor v n = 0
  · rw [if_pos hdiv] at h
    cases h
  · rw [if_neg hdiv] at h
    cases h
    rfl

theorem quotient_eq (v : Variant) (s e n : Nat)
    (hs : s < 2 ^ valueBits v) (he : e < 2 ^ valueBits v)
    (hn0 : 0 < n) (hn : n < 2 ^ (divisorBits v - 1)) :
    quotient v s e n
      = Int.tdiv (((e : Int) - (s : Int)) * ((2 ^ fractionalBits v : Nat) : Int)) (n : Int) := by
  have hn1 : (0 : Int) < (n : Int) := by exact_mod_cast hn0
  have hdiv : castDivisor v n = n := by
    cases v <;> simp only [castDivisor, divisorBits, wrapSigned] at hn ⊢ <;> omega
  unfold quotient
  rw [rawDelta_eq v s e hs he, hdiv]
  have h1 := tdiv_abs_le (((e : Int) - (s : Int)) * ((2 ^ fractionalBits v : Nat) : Int)) n hn1
  have h2 := tdiv_bounds_nonneg (((e : Int) - (s : Int)) * ((2 ^ fractionalBits v : Nat) : Int)) n
  have h3 := tdiv_bounds_nonpos (((e : Int) - (s : Int)) * ((2 ^ fractionalBits v : Nat) : Int)) n
  clear hdiv
  generalize Int.tdiv (((e : Int) - (s : Int)) * ((2 ^ fractionalBits v : Nat) : Int)) (n : Int)
    = q at h1 h2 h3 ⊢
  cases v <;>
    simp only [valueBits, accumulatorBits, fractionalBits, wrapSigned] at hs he h1 h2 h3 ⊢ <;>
    omega

/-! ## The 8-bit step ceiling -/

/-- C11: on the 8-bit variant, for all `start`, `end` below 256 and every
`steps` in `1..32767`, the truncated signed quotient `((end - start) * 128) / steps`
computed by `initialize` is zero if and only if `steps > 128 * |end - start|`;
when it is zero the stored `deltaValue` is `1` or `-1`. -/
theorem quotient_zero_iff_above_ceiling (s e n : Nat) (hs : s < 256) (he : e < 256)
    (hn1 : 1 ≤ n) (hn : n ≤ 32767) :
    (quotient Variant.fixed8 s e n = 0 ↔ 128 * absDiff s e < n) ∧
      ∃ c, initialise Variant.fixed8 s e n = some c ∧
        (quotient Variant.fixed8 s e n = 0 → c.deltaValue = 1 ∨ c.deltaValue = -1) := by
  have hn0 : (0 : Int) < (n : Int) := by exact_mod_cast hn1
  have hq := quotient_eq Variant.fixed8 s e n (by simpa [valueBits] using hs)
    (by simpa [valueBits] using he) hn1 (by simp only [divisorBits]; omega)
  have hdiv : ¬ castDivisor Variant.fixed8 n = 0 := by
    rw [castDivisor_eq_zero_iff _ _ (by simp only [stepBits]; omega)]
    omega
  refine ⟨?_, ?_⟩
  · rw [hq]
    simp only [fractionalBits]
    constructor
    · intro h0
      have hup := tdiv_bounds_nonneg (((e : Int) - (s : Int)) * ((2 ^ 7 : Nat) : Int)) n
      have hdown := tdiv_bounds_nonpos (((e : Int) - (s : Int)) * ((2 ^ 7 : Nat) : Int)) n
      rw [h0, mul_zero] at hup hdown
      unfold absDiff
      split_ifs <;> omega
    · intro h
      apply tdiv_eq_zero_of_abs_lt <;> (unfold absDiff at h; split_ifs at h <;> omega)
  · rw [initialise_unfold, if_neg hdiv]
    refine ⟨_, rfl, ?_⟩
    intro h0
    simp only [h0, if_true]
    split_ifs
    · exact Or.inl rfl
    · exact Or.inr rfl

theorem quotient_zero_iff_above_ceiling_witness :
    (quotient Variant.fixed8 10 12 257 = 0 ↔ 128 * absDiff 10 12 < 257) ∧
      ∃ c, initialise Variant.fixed8 10 12 257 = some c ∧
        (quotient Variant.fixed8 10 12 257 = 0 → c.deltaValue = 1 ∨ c.deltaValue = -1) :=
  quotient_zero_iff_above_ceiling 10 12 257 (by decide) (by decide) (by decide) (by decide)

/-! ## Totality of `initialize` -/

/-- C12: for each fixed-point variant and all `start`, `end` of the value type
and `steps` of the step type, the divisor of `initialize` after the cast to the
signed type is zero if and only if `steps == 0`; the dividend is never the
minimum of its signed type, so the signed division is undefined if and only if
`steps == 0`; and `initialize` completes for every `steps > 0`. -/
theorem division_faults_iff_zero_steps (v : Variant) (s e n : Nat)
    (hs : s < 2 ^ valueBits v) (he : e < 2 ^ valueBits v) (hn : n < 2 ^ stepBits v) :
    (castDivisor v n = 0 ↔ n = 0) ∧
      rawDelta v s e ≠ -((2 ^ (accumulatorBits v - 1) : Nat) : Int) ∧
      (divisionFaults v s e n ↔ n = 0) ∧
      (0 < n → ∃ c, initialise v s e n = some c) ∧
      (n = 0 → initialise v s e n = none) := by
  have h1 := castDivisor_eq_zero_iff v n hn
  have h2 : rawDelta v s e ≠ -((2 ^ (accumulatorBits v - 1) : Nat) : Int) := by
    rw [rawDelta_eq v s e hs he]
    cases v <;> simp only [valueBits, accumulatorBits, fractionalBits] at hs he ⊢ <;> omega
  refine ⟨h1, h2, ?_, ?_, ?_⟩
  · unfold divisionFaults
    constructor
    · rintro (h | ⟨h, -⟩)
      · exact h1.mp h
      · exact absurd h h2
    · intro h
      exact Or.inl (h1.mpr h)
  · intro h0
    exact initialise_isSome v s e n h0 hn
  · intro h0
    rw [initialise_unfold, if_pos (h1.mpr h0)]

theorem division_faults_iff_zero_steps_witness :
    (castDivisor Variant.fixed8 65535 = 0 ↔ 65535 = 0) ∧
      rawDelta Variant.fixed8 255 0 ≠ -((2 ^ (accumulatorBits Variant.fixed8 - 1) : Nat) : Int) ∧
      (divisionFaults Variant.fixed8 255 0 65535 ↔ 65535 = 0) ∧
      (0 < 65535 → ∃ c, initialise Variant.fixed8 255 0 65535 = some c) ∧
      (65535 = 0 → initialise Variant.fixed8 255 0 65535 = none) :=
  division_faults_iff_zero_steps Variant.fixed8 255 0 65535 (by decide) (by decide) (by decide)

/-! ## Re-initialisation -/

/-- C13: `initialize` discards the prior state.  For any two prior states
`p1` and `p2` and any arguments with `steps > 0` of the step type,
`initialize(start, end, steps)` completes from both with the same state, hence
every subsequent output of `step()` coincides. -/
theorem reinitialise_discards_prior (v : Variant) (p1 p2 : Computations) (s e n k : Nat)
    (hn0 : 0 < n) (hn : n < 2 ^ stepBits v) :
    ∃ c, initialiseFrom v p1 s e n = some c ∧ initialiseFrom v p2 s e n = some c ∧
      (initialiseFrom v p1 s e n).map (fun c1 => output v c1 k)
        = (initialiseFrom v p2 s e n).map (fun c2 => output v c2 k) := by
  obtain ⟨c, hc⟩ := initialise_isSome v s e n hn0 hn
  refine ⟨c, ?_, ?_, ?_⟩
  · rw [initialiseFrom_eq, hc]
  · rw [initialiseFrom_eq, hc]
  · rw [initialiseFrom_eq, initialiseFrom_eq]

theorem reinitialise_discards_prior_witness :
    ∃ c, initialiseFrom Variant.fixed8 { accumulatedValue := 5, deltaValue := 7 } 0 100 200
        = some c ∧
      initialiseFrom Variant.fixed8 (reset { accumulatedValue := 900, deltaValue := -3 }) 0 100 200
        = some c ∧
      (initialiseFrom Variant.fixed8 { accumulatedValue := 5, deltaValue := 7 } 0 100 200).map
          (fun c1 => output Variant.fixed8 c1 4)
        = (initialiseFrom Variant.fixed8 (reset { accumulatedValue := 900, deltaValue := -3 })
            0 100 200).map (fun c2 => output Variant.fixed8 c2 4) :=
  reinitialise_discards_prior Variant.fixed8 { accumulatedValue := 5, deltaValue := 7 }
    (reset { accumulatedValue := 900, deltaValue := -3 }) 0 100 200 4 (by decide) (by decide)

/-! ## Step counts above the signed range (8-bit) -/

/-- C14 (the code at the failing input): on the 8-bit variant
`initialize(3, 7, 65535)` casts `steps` to `-1`, stores `deltaValue = -512`
although `end > start`, and the first output of `step()` is 253. -/
theorem steps_cast_flips_delta_sign :
    ∃ c, initialise Variant.fixed8 3 7 65535 = some c ∧
      castDivisor Variant.fixed8 65535 = -1 ∧
      c.deltaValue = -512 ∧ output Variant.fixed8 c 1 = 253 :=
  ⟨{ accumulatedValue := 128, deltaValue := -512 }, by decide, by decide, rfl, by decide⟩

/-! ## Closed form of the 8-bit iteration -/

/-- C16: on the 8-bit variant, for all `start`, `end`, every `steps > 0` of the
step type and every `k ≥ 1`, the value returned by call number `k` of `step()`
after `initialize(start, end, steps)` equals the direct formula
`(((128 * start + trunc(d / 2) + k * d) mod 2^16) div 2^7) mod 2^8`, where `d`
is the stored `deltaValue`. -/
theorem output_closed_form_fixed8 (s e n k : Nat) (hn0 : 0 < n) (hn : n < 65536) (hk : 1 ≤ k) :
    ∃ c, initialise Variant.fixed8 s e n = some c ∧
      output Variant.fixed8 c k = closedFormOutput8 s c.deltaValue k := by
  obtain ⟨c, hc⟩ := initialise_isSome Variant.fixed8 s e n hn0 (by simpa [stepBits] using hn)
  refine ⟨c, hc, ?_⟩
  have hacc := initialise_accumulatedValue Variant.fixed8 s e n c hc
  rw [output_eq _ _ k hk (by rw [hacc]; exact wrapUnsigned_lt _ _), hacc, wrapUnsigned_add_wrap]
  unfold closedFormOutput8
  have hsum : (s : Int) * ((2 ^ fractionalBits Variant.fixed8 : Nat) : Int)
      + Int.tdiv c.deltaValue 2 + (k : Int) * c.deltaValue
      = 128 * (s : Int) + Int.tdiv c.deltaValue 2 + (k : Int) * c.deltaValue := by
    simp only [fractionalBits]
    push_cast
    ring
  rw [hsum]
  generalize 128 * (s : Int) + Int.tdiv c.deltaValue 2 + (k : Int) * c.deltaValue = x
  simp only [accumulatorBits, fractionalBits, valueBits, wrapUnsigned]
  omega

theorem output_closed_form_fixed8_witness :
    ∃ c, initialise Variant.fixed8 200 10 65535 = some c ∧
      output Variant.fixed8 c 3 = closedFormOutput8 200 c.deltaValue 3 :=
  output_closed_form_fixed8 200 10 65535 3 (by decide) (by decide) (by decide)

/-! ## Range of the raw delta -/

/-- C17: for each fixed-point variant and every pair of values of the value
type, `(end - start) * 2^f` lies in the range of the signed accumulator type
(`int16_t` for 8-bit, `int32_t` for 16-bit, `int64_t` for 32-bit values), so
the `delta` computed by `initialize` is exactly `(end - start) * 2^f`. -/
theorem rawDelta_lossless (v : Variant) (s e : Nat)
    (hs : s < 2 ^ valueBits v) (he : e < 2 ^ valueBits v) :
    -((2 ^ (accumulatorBits v - 1) : Nat) : Int)
        ≤ ((e : Int) - (s : Int)) * ((2 ^ fractionalBits v : Nat) : Int) ∧
      ((e : Int) - (s : Int)) * ((2 ^ fractionalBits v : Nat) : Int)
        ≤ ((2 ^ (accumulatorBits v - 1) : Nat) : Int) - 1 ∧
      rawDelta v s e = ((e : Int) - (s : Int)) * ((2 ^ fractionalBits v : Nat) : Int) := by
  refine ⟨?_, ?_, rawDelta_eq v s e hs he⟩
  · cases v <;> simp only [valueBits, accumulatorBits, fractionalBits] at hs he ⊢ <;> omega
  · cases v <;> simp only [valueBits, accumulatorBits, fractionalBits] at hs he ⊢ <;> omega

theorem rawDelta_lossless_witness :
    -((2 ^ (accumulatorBits Variant.fixed16 - 1) : Nat) : Int)
        ≤ ((0 : Nat) - (65535 : Nat) : Int) * ((2 ^ fractionalBits Variant.fixed16 : Nat) : Int) ∧
      ((0 : Nat) - (65535 : Nat) : Int) * ((2 ^ fractionalBits Variant.fixed16 : Nat) : Int)
        ≤ ((2 ^ (accumulatorBits Variant.fixed16 - 1) : Nat) : Int) - 1 ∧
      rawDelta Variant.fixed16 65535 0
        = ((0 : Nat) - (65535 : Nat) : Int) * ((2 ^ fractionalBits Variant.fixed16 : Nat) : Int) :=
  rawDelta_lossless Variant.fixed16 65535 0 (by decide) (by decide)

/-! ## Accuracy of the upward 8-bit interpolation -/

/-- C15: on the 8-bit variant, for all `start < end` and every `steps` with
`end - start ≤ steps ≤ 128 * (end - start)`, the accumulator does not wrap in
`initialize` nor in any of the first `steps` calls of `step()` (after `k ≤ steps`
calls it is the start accumulator plus `k` times the delta, as integers), and
the output `out` of call number `steps` satisfies
`end - ceil((steps - 1) / 128) ≤ out ≤ end`; for `steps ≤ 128` it is `end` or
`end - 1`. -/
theorem upward_accuracy_fixed8 (s e n k : Nat) (hs : s < 256) (he : e < 256) (hse : s < e)
    (hlo : e - s ≤ n) (hhi : n ≤ 128 * (e - s)) (hk : k ≤ n) :
    ∃ c, initialise Variant.fixed8 s e n = some c ∧
      (c.accumulatedValue : Int) = 128 * (s : Int) + c.deltaValue / 2 ∧
      ((stepN Variant.fixed8 k c).accumulatedValue : Int)
        = (c.accumulatedValue : Int) + (k : Int) * c.deltaValue ∧
      e ≤ output Variant.fixed8 c n + (n + 126) / 128 ∧
      output Variant.fixed8 c n ≤ e ∧
      (n ≤ 128 → output Variant.fixed8 c n = e ∨ output Variant.fixed8 c n + 1 = e) := by
  have habs : absDiff s e = e - s := by simp [absDiff, hse.le]
  have hn1 : 1 ≤ n := by omega
  have hceil : n ≤ 2 ^ fractionalBits Variant.fixed8 * absDiff s e := by
    rw [habs]
    simpa [fractionalBits] using hhi
  have hlo2 : absDiff s e ≤ n := by rw [habs]; exact hlo
  obtain ⟨hd1, hd2, hd3⟩ := storedDelta_up Variant.fixed8 s e n hse hn1 hceil
  have hdF := storedDelta_up_le Variant.fixed8 s e n hse hn1 hceil hlo2
  have hinit := initialise_eq Variant.fixed8 s e n (by simpa [valueBits] using hs)
    (by simpa [valueBits] using he) hn1 (by simp only [divisorBits]; omega)
  have hp : (k : Int) * storedDelta Variant.fixed8 s e n
      ≤ (n : Int) * storedDelta Variant.fixed8 s e n :=
    mul_le_mul_of_nonneg_right (by exact_mod_cast hk) (by omega)
  have hp0 : 0 ≤ (k : Int) * storedDelta Variant.fixed8 s e n :=
    mul_nonneg (by positivity) (by omega)
  refine ⟨_, hinit, ?_, ?_, ?_⟩
  · simp only [wrapUnsigned_cast]
    rw [(tdiv_two _).1 (by omega)]
    generalize storedDelta Variant.fixed8 s e n = d at hd1 hdF ⊢
    simp only [fractionalBits, accumulatorBits] at hdF ⊢
    omega
  · rw [stepN_accumulatedValue _ _ _ (wrapUnsigned_lt _ _), wrapUnsigned_add_wrap]
    simp only [wrapUnsigned_cast]
    rw [(tdiv_two _).1 (by omega)]
    generalize storedDelta Variant.fixed8 s e n = d at hd1 hd2 hd3 hdF hp hp0 ⊢
    generalize (k : Int) * d = pk at hp hp0 ⊢
    generalize (n : Int) * d = pn at hd2 hd3 hp
    simp only [fractionalBits, accumulatorBits] at hd2 hd3 hdF ⊢
    omega
  · rw [output_eq _ _ n hn1 (wrapUnsigned_lt _ _)]
    simp only [wrapUnsigned_add_wrap]
    rw [(tdiv_two _).1 (by omega)]
    generalize storedDelta Variant.fixed8 s e n = d at hd1 hd2 hd3 hdF ⊢
    generalize (n : Int) * d = pn at hd2 hd3 ⊢
    simp only [valueBits, fractionalBits, accumulatorBits, wrapUnsigned] at hd2 hd3 hdF ⊢
    omega

theorem upward_accuracy_fixed8_witness :
    ∃ c, initialise Variant.fixed8 0 3 193 = some c ∧
      (c.accumulatedValue : Int) = 128 * ((0 : Nat) : Int) + c.deltaValue / 2 ∧
      ((stepN Variant.fixed8 100 c).accumulatedValue : Int)
        = (c.accumulatedValue : Int) + ((100 : Nat) : Int) * c.deltaValue ∧
      3 ≤ output Variant.fixed8 c 193 + (193 + 126) / 128 ∧
      output Variant.fixed8 c 193 ≤ 3 ∧
      (193 ≤ 128 → output Variant.fixed8 c 193 = 3 ∨ output Variant.fixed8 c 193 + 1 = 3) :=
  upward_accuracy_fixed8 0 3 193 100 (by decide) (by decide) (by decide) (by decide) (by decide)
    (by decide)

end LinearInterpolation

/-! # Timer period -/

namespace Timer

theorem setPeriod_of_cycles (cpuFrequency microseconds : Nat)
    (h1 : 1 ≤ microseconds * (cpuFrequency / 1000000))
    (h2 : microseconds * (cpuFrequency / 1000000) ≤ 2 ^ 32 - 65536) :
    setPeriod cpuFrequency microseconds = some
      ((microseconds * (cpuFrequency / 1000000) + 65535) / 65536,
        ((microseconds * (cpuFrequency / 1000000)
          / ((microseconds * (cpuFrequency / 1000000) + 65535) / 65536)) % 65536 + 65535)
          % 65536) := by
  unfold setPeriod
  generalize microseconds * (cpuFrequency / 1000000) = c at h1 h2 ⊢
  have hc : c % 4294967296 = c := Nat.mod_eq_of_lt (by omega)
  have hc2 : (c + 65535) % 4294967296 = c + 65535 := Nat.mod_eq_of_lt (by omega)
  have hp : ((c + 65535) / 65536) % 65536 = (c + 65535) / 65536 := Nat.mod_eq_of_lt (by omega)
  have hp0 : (c + 65535) / 65536 ≠ 0 := by omega
  simp only [Nat.reducePow, hc, hc2, hp, if_neg hp0]

/-- C18: for every `microseconds` whose cycle count
`cycles = microseconds * (F_CPU / 1000000)` satisfies `1 ≤ cycles ≤ 2^32 - 65536`,
`setPeriod` completes, the prescaler is `ceil(cycles / 65536)`, at least 1 and
below `2^16`, and the returned 16-bit `overflow` satisfies
`prescaler * (overflow + 1) ≤ cycles < prescaler * (overflow + 2)`; when
`cycles = 65536 * prescaler` the overflow is 65535.  With 36000 cycles
(`F_CPU` 72 MHz, 500 microseconds) the prescaler is 1 and the overflow 35999. -/
theorem setPeriod_arithmetic (cpuFrequency microseconds : Nat)
    (h1 : 1 ≤ microseconds * (cpuFrequency / 1000000))
    (h2 : microseconds * (cpuFrequency / 1000000) ≤ 2 ^ 32 - 65536) :
    (∃ prescaler overflow, setPeriod cpuFrequency microseconds = some (prescaler, overflow) ∧
      prescaler = (microseconds * (cpuFrequency / 1000000) + 65535) / 65536 ∧
      65536 * (prescaler - 1) < microseconds * (cpuFrequency / 1000000) ∧
      microseconds * (cpuFrequency / 1000000) ≤ 65536 * prescaler ∧
      1 ≤ prescaler ∧ prescaler < 2 ^ 16 ∧ overflow < 2 ^ 16 ∧
      prescaler * (overflow + 1) ≤ microseconds * (cpuFrequency / 1000000) ∧
      microseconds * (cpuFrequency / 1000000) < prescaler * (overflow + 2) ∧
      (microseconds * (cpuFrequency / 1000000) = 65536 * prescaler → overflow = 65535)) ∧
    setPeriod 72000000 500 = some (1, 35999) := by
  refine ⟨?_, by decide⟩
  refine ⟨_, _, setPeriod_of_cycles cpuFrequency microseconds h1 h2, rfl, ?_⟩
  generalize microseconds * (cpuFrequency / 1000000) = c at h1 h2 ⊢
  have hp1 : 1 ≤ (c + 65535) / 65536 := by omega
  have hp2 : (c + 65535) / 65536 < 2 ^ 16 := by omega
  have hp3 : 65536 * ((c + 65535) / 65536 - 1) < c := by omega
  have hpc : (c + 65535) / 65536 ≤ c := by omega
  have hcp : c ≤ (c + 65535) / 65536 * 65536 := by omega
  have hq1 : 1 ≤ c / ((c + 65535) / 65536) := Nat.div_pos hpc (by omega)
  have hq2 : c / ((c + 65535) / 65536) ≤ 65536 := Nat.div_le_of_le_mul (by omega)
  have hq3 : (c + 65535) / 65536 * (c / ((c + 65535) / 65536)) ≤ c := Nat.mul_div_le _ _
  have hq4 : c < (c + 65535) / 65536 * (c / ((c + 65535) / 65536) + 1) :=
    Nat.lt_mul_div_succ _ (by omega)
  generalize (c + 65535) / 65536 = p at hp1 hp2 hp3 hpc hcp hq1 hq2 hq3 hq4 ⊢
  generalize hq : c / p = q at hq1 hq2 hq3 hq4 ⊢
  refine ⟨hp3, by omega, hp1, hp2, by omega, ?_, ?_, ?_⟩
  · rcases Nat.lt_or_ge q 65536 with hlt | hge
    · have hov : (q % 65536 + 65535) % 65536 + 1 = q := by omega
      rw [hov]
      exact hq3
    · have hq5 : q = 65536 := by omega
      subst hq5
      norm_num
      omega
  · rcases Nat.lt_or_ge q 65536 with hlt | hge
    · have hov : (q % 65536 + 65535) % 65536 + 2 = q + 1 := by omega
      rw [hov]
      exact hq4
    · have hq5 : q = 65536 := by omega
      subst hq5
      norm_num
      omega
  · intro hc
    have hq5 : q = 65536 := by
      rw [← hq, hc, Nat.mul_div_cancel _ (by omega)]
    subst hq5
    norm_num

theorem setPeriod_arithmetic_witness :
    (∃ prescaler overflow, setPeriod 72000000 1000 = some (prescaler, overflow) ∧
      prescaler = (1000 * (72000000 / 1000000) + 65535) / 65536 ∧
      65536 * (prescaler - 1) < 1000 * (72000000 / 1000000) ∧
      1000 * (72000000 / 1000000) ≤ 65536 * prescaler ∧
      1 ≤ prescaler ∧ prescaler < 2 ^ 16 ∧ overflow < 2 ^ 16 ∧
      prescaler * (overflow + 1) ≤ 1000 * (72000000 / 1000000) ∧
      1000 * (72000000 / 1000000) < prescaler * (overflow + 2) ∧
      (1000 * (72000000 / 1000000) = 65536 * prescaler → overflow = 65535)) ∧
    setPeriod 72000000 500 = some (1, 35999) :=
  setPeriod_arithmetic 72000000 1000 (by decide) (by decide)

end Timer
